import Mathlib

/-!
Verification of the consistent-Bayesian inversion tutorial
(`CBayesTutorial_Example2.ipynb`).

The notebook's numerical core is embedded shallowly over `ℚ`:

* `rejection_sampling` embeds the function of the same name: it normalizes
  the weight vector `r` by its maximum `M = np.max(r)` and returns
  `np.where(r/M >= check)[0]`, the increasing list of accepted indices.
  The elementwise IEEE comparison `(x / M) >= u` — including the
  `0/0 = NaN` and `x/0 = ±inf` cases numpy produces when `M = 0` — is
  captured by `npDivGe`.
* `gaussian_kde_fit` / `DensityModel.evaluate` embed the fitted kernel
  density model (`q_kde = GKDE(qvals, 'silverman')`); the kernel shape and
  bandwidth are parameters, and `evaluate` threads the model state
  explicitly so that purity of evaluation is a provable statement.
* `weights_r`, `samples_to_keep`, `post_q`, `post_lam`, `accept_rate`
  embed the posterior-construction cell
  (`r = np.divide(obs_vals, q_kde(qvals))`, `rejection_sampling(r)`,
  `qvals[samples_to_keep]`, `lam[:, samples_to_keep]`,
  `samples_to_keep.size / lam.shape[0]`).  The parameter matrix `lam` is a
  list of rows; the notebook's own run shows it is stored with the sample
  axis second (`lam[:, idx]` gathers columns), so `lam.length` is the
  parameter dimension, not the sample count.
* `npMean`, `npVar`, `diagnostics` embed the diagnostics cell
  (`np.mean(post_q)`, `np.sqrt(np.var(post_q))`, `np.mean(r)`,
  `np.mean(r*np.log(r))`); `np.var` uses `ddof = 0`, i.e. the mean of
  squared deviations.  `log` and `sqrt` are transcendental, so they are
  abstract function parameters here.
-/

/-- `np.max` on a weight vector: the maximum element of a non-empty list
(junk value `0` on the empty list, where `np.max` would raise). -/
def npMax : List ℚ → ℚ
  | [] => 0
  | x :: xs => xs.foldl max x

/-- The elementwise IEEE-754 comparison `(x / M) >= u` performed by
`new_r = r/M; np.where(new_r >= check)`: when `M = 0`, numpy produces
`NaN` for `0/0` (any comparison false), `+inf` for `x/0` with `x > 0`
(`>= u` true for finite `u`), `-inf` for `x < 0` (`>= u` false); when
`M ≠ 0` it is the exact comparison `x / M ≥ u`. -/
def npDivGe (x M u : ℚ) : Bool :=
  if M = 0 then
    if 0 < x then true else false
  else
    decide (u ≤ x / M)

/-- Embeds `rejection_sampling(r)` from the notebook.  The uniform draws
`check = np.random.uniform(0, 1, N)` are passed explicitly.  `np.where`
returns the accepted indices in increasing order, which the filter over
`List.range` reproduces. -/
def rejection_sampling (r check : List ℚ) : List ℕ :=
  let M := npMax r
  (List.range r.length).filter (fun i => npDivGe (r.getD i 0) M (check.getD i 0))

/-- A fitted kernel density model: `GKDE(dataset, 'silverman')` stores the
dataset and a bandwidth computed from it; the bandwidth is kept abstract. -/
structure DensityModel where
  dataset : List ℚ
  bandwidth : ℚ
  deriving Repr, DecidableEq

/-- Fitting `GKDE(samples, 'silverman')`: records the dataset and the
(abstract) bandwidth; nothing else is mutated afterwards. -/
def gaussian_kde_fit (samples : List ℚ) (bw : ℚ) : DensityModel :=
  ⟨samples, bw⟩

/-- Pointwise value of the fitted density: sum of per-sample kernels
`K((x - s)/h)` divided by `N * h`, with the kernel shape `K` abstract
(Gaussian in the source). -/
def kde_pdf (K : ℚ → ℚ) (m : DensityModel) (x : ℚ) : ℚ :=
  ((m.dataset.map (fun s => K ((x - s) / m.bandwidth))).sum) /
    (m.dataset.length * m.bandwidth)

/-- Embeds calling the fitted model on an array of points
(`q_kde(qvals)`).  The model state is threaded explicitly — the call
returns the values together with the model it leaves behind — so that
"evaluation does not mutate the fitted model" is a statement, not a
convention. -/
def DensityModel.evaluate (K : ℚ → ℚ) (m : DensityModel) (pts : List ℚ) :
    List ℚ × DensityModel :=
  (pts.map (kde_pdf K m), m)

/-- Embeds `r = np.divide(obs_vals, q_kde(qvals))` where
`obs_vals = norm.pdf(qvals, 0.7, 1e-2)` is the observed density `obsf`
evaluated at every sample: the elementwise ratio of observed density to
fitted push-forward density at the QoI samples. -/
def weights_r (qvals : List ℚ) (obsf K : ℚ → ℚ) (bw : ℚ) : List ℚ :=
  List.zipWith (· / ·) (qvals.map obsf)
    ((gaussian_kde_fit qvals bw).evaluate K qvals).1

/-- Embeds `samples_to_keep = rejection_sampling(r)`. -/
def samples_to_keep (qvals : List ℚ) (obsf K : ℚ → ℚ) (bw : ℚ)
    (check : List ℚ) : List ℕ :=
  rejection_sampling (weights_r qvals obsf K bw) check

/-- Embeds `post_q = qvals[samples_to_keep]` (fancy indexing gathers the
accepted entries in order). -/
def post_q (qvals : List ℚ) (obsf K : ℚ → ℚ) (bw : ℚ)
    (check : List ℚ) : List ℚ :=
  (samples_to_keep qvals obsf K bw check).map (fun i => qvals.getD i 0)

/-- Embeds `post_lam = lam[:, samples_to_keep]`: `lam` is a list of rows,
and every row is gathered at the accepted indices (column selection). -/
def post_lam (qvals : List ℚ) (lam : List (List ℚ)) (obsf K : ℚ → ℚ)
    (bw : ℚ) (check : List ℚ) : List (List ℚ) :=
  lam.map (fun row => (samples_to_keep qvals obsf K bw check).map
    (fun i => row.getD i 0))

/-- Embeds `accept_rate = samples_to_keep.size / lam.shape[0]`: the number
of accepted indices divided by the number of ROWS of `lam`. -/
def accept_rate (qvals : List ℚ) (lam : List (List ℚ)) (obsf K : ℚ → ℚ)
    (bw : ℚ) (check : List ℚ) : ℚ :=
  ((samples_to_keep qvals obsf K bw check).length : ℚ) / (lam.length : ℚ)

/-- `np.mean`: sum divided by length. -/
def npMean (xs : List ℚ) : ℚ := xs.sum / xs.length

/-- `np.var` with the default `ddof = 0`: the mean of squared deviations
from the mean (population variance, denominator `length`). -/
def npVar (xs : List ℚ) : ℚ :=
  npMean (xs.map (fun x => (x - npMean xs) ^ 2))

/-- Embeds the diagnostics cell: `np.mean(post_q)`,
`np.sqrt(np.var(post_q))`, `np.mean(r)`, `np.mean(r * np.log(r))`.
`sqrtf` and `logf` stand for `np.sqrt` and `np.log`. -/
def diagnostics (postq r : List ℚ) (sqrtf logf : ℚ → ℚ) : ℚ × ℚ × ℚ × ℚ :=
  (npMean postq, sqrtf (npVar postq), npMean r,
    npMean (r.map (fun x => x * logf x)))

/-! ### Helper lemmas about `npMax` and `rejection_sampling` -/

theorem le_foldl_max (xs : List ℚ) (a : ℚ) : a ≤ xs.foldl max a := by
  induction xs generalizing a with
  | nil => exact le_refl a
  | cons x xs ih => exact le_trans (le_max_left a x) (ih (max a x))

theorem le_foldl_max_of_mem {x : ℚ} {xs : List ℚ} (h : x ∈ xs) (a : ℚ) :
    x ≤ xs.foldl max a := by
  induction xs generalizing a with
  | nil => cases h
  | cons y ys ih =>
    rcases List.mem_cons.1 h with rfl | hmem
    · exact le_trans (le_max_right a x) (le_foldl_max ys (max a x))
    · exact ih hmem (max a y)

theorem foldl_max_mem (xs : List ℚ) (a : ℚ) :
    xs.foldl max a = a ∨ xs.foldl max a ∈ xs := by
  induction xs generalizing a with
  | nil => exact Or.inl rfl
  | cons x xs ih =>
    simp only [List.foldl_cons]
    rcases ih (max a x) with h | h
    · rcases max_choice a x with hax | hax
      · exact Or.inl (by rw [h, hax])
      · exact Or.inr (by rw [h, hax]; exact List.mem_cons_self x xs)
    · exact Or.inr (List.mem_cons_of_mem x h)

theorem le_npMax {x : ℚ} {r : List ℚ} (h : x ∈ r) : x ≤ npMax r := by
  cases r with
  | nil => cases h
  | cons y ys =>
    rcases List.mem_cons.1 h with rfl | hmem
    · exact le_foldl_max ys x
    · exact le_foldl_max_of_mem hmem y

theorem npMax_mem {r : List ℚ} (h : r ≠ []) : npMax r ∈ r := by
  cases r with
  | nil => exact absurd rfl h
  | cons y ys =>
    show ys.foldl max y ∈ y :: ys
    rcases foldl_max_mem ys y with h' | h'
    · rw [h']; exact List.mem_cons_self y ys
    · exact List.mem_cons_of_mem y h'

theorem mem_rejection_sampling (r check : List ℚ) (i : ℕ) :
    i ∈ rejection_sampling r check ↔
      i < r.length ∧ npDivGe (r.getD i 0) (npMax r) (check.getD i 0) = true := by
  simp [rejection_sampling, List.mem_filter, List.mem_range]

theorem rejection_sampling_sorted (r check : List ℚ) :
    (rejection_sampling r check).Sorted (· < ·) := by
  exact (List.sorted_lt_range r.length).filter _

theorem rejection_sampling_nodup (r check : List ℚ) :
    (rejection_sampling r check).Nodup :=
  (rejection_sampling_sorted r check).nodup

/-- C3: for a weight sequence with positive maximum `M = npMax r` and
index-aligned uniform draws, `rejection_sampling` accepts exactly the
indices `i < N` with `r[i] / M ≥ u_i`, and returns them in input order
(strictly increasing indices). -/
theorem rejection_sampling_accepts_iff (r check : List ℚ)
    (hM : 0 < npMax r) (hlen : check.length = r.length) :
    (∀ i, i ∈ rejection_sampling r check ↔
        i < r.length ∧ check.getD i 0 ≤ r.getD i 0 / npMax r)
    ∧ (rejection_sampling r check).Sorted (· < ·) := by
  refine ⟨fun i => ?_, rejection_sampling_sorted r check⟩
  rw [mem_rejection_sampling]
  have hM' : npMax r ≠ 0 := ne_of_gt hM
  simp [npDivGe, hM']

/-- Witness for C3 at `r = [1, 2]`, `check = [1/2, 3/4]`. -/
theorem rejection_sampling_accepts_iff_witness :
    (0 : ℚ) < npMax [1, 2] ∧
    ((∀ i, i ∈ rejection_sampling [1, 2] [1/2, 3/4] ↔
        i < ([1, 2] : List ℚ).length ∧
          ([1/2, 3/4] : List ℚ).getD i 0 ≤ ([1, 2] : List ℚ).getD i 0 / npMax [1, 2])
      ∧ (rejection_sampling [1, 2] [1/2, 3/4]).Sorted (· < ·)) :=
  ⟨by norm_num [npMax],
    rejection_sampling_accepts_iff [1, 2] [1/2, 3/4] (by norm_num [npMax]) (by norm_num)⟩

/-- C6: for a weight sequence with at least one strictly positive entry,
the accepted-index sequence is contained in `{0, ..., N-1}`, strictly
increasing, and duplicate-free. -/
theorem rejection_sampling_wellformed (r check : List ℚ)
    (hpos : ∃ x ∈ r, 0 < x) :
    (∀ i ∈ rejection_sampling r check, i < r.length)
    ∧ (rejection_sampling r check).Sorted (· < ·)
    ∧ (rejection_sampling r check).Nodup :=
  ⟨fun i hi => ((mem_rejection_sampling r check i).1 hi).1,
    rejection_sampling_sorted r check, rejection_sampling_nodup r check⟩

/-- Witness for C6 at `r = [0, 2]`, `check = [1/2, 1/2]`. -/
theorem rejection_sampling_wellformed_witness :
    (∃ x ∈ ([0, 2] : List ℚ), 0 < x) ∧
    ((∀ i ∈ rejection_sampling [0, 2] [1/2, 1/2], i < ([0, 2] : List ℚ).length)
      ∧ (rejection_sampling [0, 2] [1/2, 1/2]).Sorted (· < ·)
      ∧ (rejection_sampling [0, 2] [1/2, 1/2]).Nodup) :=
  ⟨⟨2, by norm_num⟩,
    rejection_sampling_wellformed [0, 2] [1/2, 1/2] ⟨2, by norm_num⟩⟩

theorem foldl_max_map_mul (c : ℚ) (hc : 0 ≤ c) (xs : List ℚ) :
    ∀ a, (xs.map (fun x => c * x)).foldl max (c * a) = c * xs.foldl max a := by
  induction xs with
  | nil => intro a; rfl
  | cons x xs ih =>
    intro a
    simp only [List.map_cons, List.foldl_cons]
    rw [← mul_max_of_nonneg a x hc]
    exact ih (max a x)

theorem npMax_map_mul (c : ℚ) (hc : 0 ≤ c) (r : List ℚ) :
    npMax (r.map (fun x => c * x)) = c * npMax r := by
  cases r with
  | nil => simp [npMax]
  | cons x xs =>
    show (xs.map (fun x => c * x)).foldl max (c * x) = c * xs.foldl max x
    exact foldl_max_map_mul c hc xs x

theorem getD_map_mul (c : ℚ) (r : List ℚ) (i : ℕ) :
    (r.map (fun x => c * x)).getD i 0 = c * r.getD i 0 := by
  induction r generalizing i with
  | nil => simp
  | cons x xs ih =>
    cases i with
    | zero => simp
    | succ n => simpa using ih n

theorem npDivGe_mul (c x M u : ℚ) (hc : 0 < c) :
    npDivGe (c * x) (c * M) u = npDivGe x M u := by
  unfold npDivGe
  by_cases hM : M = 0
  · subst hM
    rw [mul_zero, if_pos rfl, if_pos rfl]
    by_cases hx : 0 < x
    · rw [if_pos hx, if_pos (mul_pos hc hx)]
    · rw [if_neg hx, if_neg (fun h => hx ((mul_pos_iff_of_pos_left hc).1 h))]
  · have hcM : c * M ≠ 0 := mul_ne_zero (ne_of_gt hc) hM
    rw [if_neg hcM, if_neg hM, mul_div_mul_left x M (ne_of_gt hc)]

/-- C9: the accepted index set is invariant under rescaling all weights by
a positive constant `c`: the decision depends only on `r[i] / max(r)`. -/
theorem rejection_sampling_scale_invariant (r check : List ℚ) (c : ℚ)
    (hc : 0 < c) (hM : 0 < npMax r) :
    rejection_sampling (r.map (fun x => c * x)) check =
      rejection_sampling r check := by
  unfold rejection_sampling
  rw [List.length_map]
  refine List.filter_congr fun i _ => ?_
  rw [getD_map_mul, npMax_map_mul c (le_of_lt hc), npDivGe_mul _ _ _ _ hc]

/-- Witness for C9 at `r = [1, 2]`, `c = 3`, `check = [1/2, 1/2]`. -/
theorem rejection_sampling_scale_invariant_witness :
    (0 : ℚ) < 3 ∧ (0 : ℚ) < npMax [1, 2] ∧
    rejection_sampling (([1, 2] : List ℚ).map (fun x => 3 * x)) [1/2, 1/2] =
      rejection_sampling [1, 2] [1/2, 1/2] :=
  ⟨by norm_num, by norm_num [npMax],
    rejection_sampling_scale_invariant [1, 2] [1/2, 1/2] 3 (by norm_num)
      (by norm_num [npMax])⟩

/-- C10: every index attaining the maximum weight is accepted whenever its
uniform draw is `< 1` (its normalized weight is `1`), and consequently the
accepted index list is non-empty. -/
theorem max_weight_always_accepted (r check : List ℚ)
    (hM : 0 < npMax r)
    (hcheck : ∀ i < r.length, check.getD i 0 < 1) :
    (∀ i < r.length, r.getD i 0 = npMax r → i ∈ rejection_sampling r check)
    ∧ rejection_sampling r check ≠ [] := by
  have hM' : npMax r ≠ 0 := ne_of_gt hM
  have haccept : ∀ i < r.length, r.getD i 0 = npMax r →
      i ∈ rejection_sampling r check := by
    intro i hi hmax
    rw [mem_rejection_sampling]
    refine ⟨hi, ?_⟩
    simp only [npDivGe, if_neg hM', decide_eq_true_iff]
    rw [hmax, div_self hM']
    exact le_of_lt (hcheck i hi)
  refine ⟨haccept, ?_⟩
  have hne : r ≠ [] := by
    intro h
    rw [h] at hM
    exact absurd hM (by norm_num [npMax])
  obtain ⟨j, hj, hjval⟩ := List.mem_iff_getElem.1 (npMax_mem hne)
  have hjmem : j ∈ rejection_sampling r check :=
    haccept j hj (by rw [List.getD_eq_getElem r 0 hj, hjval])
  intro hempty
  rw [hempty] at hjmem
  cases hjmem

/-- Witness for C10 at `r = [1, 2]`, `check = [1/2, 1/2]`. -/
theorem max_weight_always_accepted_witness :
    (0 : ℚ) < npMax [1, 2] ∧
    (∀ i < ([1, 2] : List ℚ).length, ([1/2, 1/2] : List ℚ).getD i 0 < 1) ∧
    ((∀ i < ([1, 2] : List ℚ).length,
        ([1, 2] : List ℚ).getD i 0 = npMax [1, 2] →
          i ∈ rejection_sampling [1, 2] [1/2, 1/2])
      ∧ rejection_sampling [1, 2] [1/2, 1/2] ≠ []) :=
  ⟨by norm_num [npMax], by intro i hi; simp at hi; interval_cases i <;> norm_num,
    max_weight_always_accepted [1, 2] [1/2, 1/2] (by norm_num [npMax])
      (by intro i hi; simp at hi; interval_cases i <;> norm_num)⟩

/-- C5 counterexample: with weights `[1, 0]` (exactly one positive entry,
at index 0) and uniform draws `[0, 0]` — `np.random.uniform(0, 1)` draws
from the half-open interval `[0, 1)`, so `0` is a possible draw — the
zero-weight index 1 is ALSO accepted, because the criterion is
`0/1 = 0 >= u_1 = 0`.  The accepted list is `[0, 1]`, not a subset of
`{0}`. -/
theorem single_positive_counterexample :
    rejection_sampling [1, 0] [0, 0] = [0, 1] := by
  norm_num [rejection_sampling, npMax, npDivGe, List.range_succ]

/-- C5 amended: if exactly one entry `r[j]` is positive, the rest are
zero, and every uniform draw is strictly positive (a zero-weight index is
accepted exactly when its draw is `0`), then only index `j` can appear in
the accepted list. -/
theorem single_positive_only_accepted (r check : List ℚ) (j : ℕ)
    (hj : j < r.length) (hpos : 0 < r.getD j 0)
    (hzero : ∀ i < r.length, i ≠ j → r.getD i 0 = 0)
    (hcheck : ∀ i < r.length, 0 < check.getD i 0) :
    ∀ i ∈ rejection_sampling r check, i = j := by
  have hmem : r.getD j 0 ∈ r := by
    rw [List.getD_eq_getElem r 0 hj]
    exact List.getElem_mem hj
  have hMpos : 0 < npMax r := lt_of_lt_of_le hpos (le_npMax hmem)
  have hM' : npMax r ≠ 0 := ne_of_gt hMpos
  intro i hi
  rw [mem_rejection_sampling] at hi
  obtain ⟨hilen, hge⟩ := hi
  by_contra hne
  rw [npDivGe, if_neg hM', decide_eq_true_iff, hzero i hilen hne, zero_div]
    at hge
  exact absurd hge (not_le.2 (hcheck i hilen))

/-- Witness for the amended C5 at `r = [0, 1]`, `j = 1`,
`check = [1/2, 1/2]`. -/
theorem single_positive_only_accepted_witness :
    (1 < ([0, 1] : List ℚ).length ∧ (0 : ℚ) < ([0, 1] : List ℚ).getD 1 0
      ∧ (∀ i < ([0, 1] : List ℚ).length, i ≠ 1 → ([0, 1] : List ℚ).getD i 0 = 0)
      ∧ (∀ i < ([0, 1] : List ℚ).length, (0 : ℚ) < ([1/2, 1/2] : List ℚ).getD i 0))
    ∧ ∀ i ∈ rejection_sampling [0, 1] [1/2, 1/2], i = 1 :=
  ⟨⟨by norm_num, by norm_num,
      by intro i hi hne; simp at hi; interval_cases i <;> simp_all,
      by intro i hi; simp at hi; interval_cases i <;> norm_num⟩,
    single_positive_only_accepted [0, 1] [1/2, 1/2] 1 (by norm_num) (by norm_num)
      (by intro i hi hne; simp at hi; interval_cases i <;> simp_all)
      (by intro i hi; simp at hi; interval_cases i <;> norm_num)⟩

/-- C4 counterexample: on the all-zero weight vector `[0, 0, 0]` the code
does NOT fail: `M = np.max(r) = 0`, `new_r = r/M` is elementwise
`0/0 = NaN` (numpy emits a RuntimeWarning but raises nothing), every
comparison `NaN >= u` is false, and the call returns normally with the
empty index array — an accepted index set (the empty one) is produced and
no error surfaces to the caller. -/
theorem all_zero_weights_counterexample :
    rejection_sampling [0, 0, 0] [1/2, 1/3, 1/4] = [] := by
  decide

/-- C4 amended: for every all-zero weight sequence, `rejection_sampling`
raises no error and returns the empty accepted-index list. -/
theorem all_zero_weights_empty (r check : List ℚ)
    (hzero : ∀ x ∈ r, x = 0) :
    rejection_sampling r check = [] := by
  have hM : npMax r = 0 := by
    cases r with
    | nil => rfl
    | cons x xs => exact hzero _ (npMax_mem (List.cons_ne_nil x xs))
  rw [List.eq_nil_iff_forall_not_mem]
  intro i hi
  rw [mem_rejection_sampling] at hi
  obtain ⟨hilen, hge⟩ := hi
  have hri : r.getD i 0 = 0 := by
    rw [List.getD_eq_getElem r 0 hilen]
    exact hzero _ (List.getElem_mem hilen)
  rw [hri, hM] at hge
  simp [npDivGe] at hge

/-- Witness for the amended C4 at `r = [0, 0]`, `check = [1/3, 2/3]`. -/
theorem all_zero_weights_empty_witness :
    (∀ x ∈ ([0, 0] : List ℚ), x = 0)
    ∧ rejection_sampling [0, 0] [1/3, 2/3] = [] :=
  ⟨by decide, all_zero_weights_empty [0, 0] [1/3, 2/3] (by decide)⟩

/-- C1: the code computes `accept_rate = samples_to_keep.size /
lam.shape[0]`, dividing by the number of ROWS of `lam` — but `lam` is
stored with samples along the second axis (`post_lam = lam[:,
samples_to_keep]` gathers columns), so `lam.shape[0]` is the parameter
dimension `D`, not the sample count `N`.  Concrete run: `N = 4` QoI
samples, `lam` a `2 × 4` matrix, weights `[1, 1, 1, 1/2]`, draws
`[0, 0, 0, 9/10]`: `K = 3` indices are accepted, the code returns
`3/2 > 1`, while `K / N = 3/4`.  (The notebook's own recorded output is
`accept_rate = 27.58` with `N = 10000`, `D = 100`, `K = 2758`.) -/
theorem accept_rate_divergence :
    accept_rate [1, 1, 1, 1/2] [[0, 0, 0, 0], [0, 0, 0, 0]]
        (fun x => x) (fun _ => 1) 1 [0, 0, 0, 9/10] = 3/2
    ∧ ((samples_to_keep [1, 1, 1, 1/2] (fun x => x) (fun _ => 1) 1
          [0, 0, 0, 9/10]).length : ℚ) /
        (([1, 1, 1, 1/2] : List ℚ).length : ℚ) = 3/4
    ∧ ¬ ((3 : ℚ)/2 < 1) := by
  refine ⟨?_, ?_, by norm_num⟩ <;>
    norm_num [accept_rate, samples_to_keep, weights_r, DensityModel.evaluate,
      gaussian_kde_fit, kde_pdf, rejection_sampling, npMax, npDivGe,
      List.range_succ]

/-- C2: the importance weight at each sample index `i` is
`obs(q[i]) / q_kde(q[i])` with `q_kde` the density fitted on `q`, and the
outputs gather exactly the accepted indices from both arrays:
`post_q[j] = q[idx[j]]` and, row by row, the `j`-th posterior parameter
column equals the `idx[j]`-th column of `lam`. -/
theorem posterior_alignment (qvals : List ℚ) (lam : List (List ℚ))
    (obsf K : ℚ → ℚ) (bw : ℚ) (check : List ℚ) :
    (∀ i < qvals.length,
        (weights_r qvals obsf K bw).getD i 0 =
          obsf (qvals.getD i 0) /
            kde_pdf K (gaussian_kde_fit qvals bw) (qvals.getD i 0))
    ∧ ∀ j < (samples_to_keep qvals obsf K bw check).length,
        (post_q qvals obsf K bw check).getD j 0 =
          qvals.getD ((samples_to_keep qvals obsf K bw check).getD j 0) 0
        ∧ ∀ d < lam.length,
            ((post_lam qvals lam obsf K bw check).getD d []).getD j 0 =
              (lam.getD d []).getD
                ((samples_to_keep qvals obsf K bw check).getD j 0) 0 := by
  constructor
  · intro i hi
    have hz : i < (List.zipWith (· / ·) (qvals.map obsf)
        (qvals.map (kde_pdf K (gaussian_kde_fit qvals bw)))).length := by
      simpa [List.length_zipWith] using hi
    show (List.zipWith (· / ·) (qvals.map obsf)
        (qvals.map (kde_pdf K (gaussian_kde_fit qvals bw)))).getD i 0 = _
    rw [List.getD_eq_getElem _ 0 hz, List.getElem_zipWith, List.getElem_map,
      List.getElem_map, List.getD_eq_getElem qvals 0 hi]
  · intro j hj
    constructor
    · have hj' : j < ((samples_to_keep qvals obsf K bw check).map
          (fun i => qvals.getD i 0)).length := by simpa using hj
      show ((samples_to_keep qvals obsf K bw check).map
          (fun i => qvals.getD i 0)).getD j 0 = _
      rw [List.getD_eq_getElem _ 0 hj', List.getElem_map,
        List.getD_eq_getElem _ 0 hj]
    · intro d hd
      have hd' : d < (lam.map (fun row =>
          (samples_to_keep qvals obsf K bw check).map
            (fun i => row.getD i 0))).length := by simpa using hd
      show ((lam.map (fun row =>
          (samples_to_keep qvals obsf K bw check).map
            (fun i => row.getD i 0))).getD d []).getD j 0 = _
      rw [List.getD_eq_getElem _ [] hd', List.getElem_map]
      have hj'' : j < ((samples_to_keep qvals obsf K bw check).map
          (fun i => lam[d].getD i 0)).length := by simpa using hj
      rw [List.getD_eq_getElem _ 0 hj'', List.getElem_map,
        List.getD_eq_getElem _ 0 hj, List.getD_eq_getElem lam [] hd]

/-- Witness for C2 at `qvals = [2, 3]`, `lam = [[5, 6]]`,
`obs = (· + 1)`, constant kernel, `bw = 1`, draws `[0, 1/2]` (both
indices are accepted: the weights are `[3, 4]`, normalized `[3/4, 1]`). -/
theorem posterior_alignment_witness :
    (weights_r [2, 3] (fun x => x + 1) (fun _ => 1) 1).getD 0 0 =
      (fun x => x + 1) (([2, 3] : List ℚ).getD 0 0) /
        kde_pdf (fun _ => 1) (gaussian_kde_fit [2, 3] 1)
          (([2, 3] : List ℚ).getD 0 0)
    ∧ (post_q [2, 3] (fun x => x + 1) (fun _ => 1) 1 [0, 1/2]).getD 0 0 =
        ([2, 3] : List ℚ).getD
          ((samples_to_keep [2, 3] (fun x => x + 1) (fun _ => 1) 1
            [0, 1/2]).getD 0 0) 0
    ∧ ((post_lam [2, 3] [[5, 6]] (fun x => x + 1) (fun _ => 1) 1
          [0, 1/2]).getD 0 []).getD 0 0 =
        (([[5, 6]] : List (List ℚ)).getD 0 []).getD
          ((samples_to_keep [2, 3] (fun x => x + 1) (fun _ => 1) 1
            [0, 1/2]).getD 0 0) 0 := by
  have hstk : 0 < (samples_to_keep [2, 3] (fun x => x + 1) (fun _ => 1) 1
      [0, 1/2]).length := by
    norm_num [samples_to_keep, weights_r, DensityModel.evaluate,
      gaussian_kde_fit, kde_pdf, rejection_sampling, npMax, npDivGe,
      List.range_succ]
  exact ⟨(posterior_alignment [2, 3] [[5, 6]] (fun x => x + 1) (fun _ => 1) 1
      [0, 1/2]).1 0 (by norm_num),
    ((posterior_alignment [2, 3] [[5, 6]] (fun x => x + 1) (fun _ => 1) 1
      [0, 1/2]).2 0 hstk).1,
    ((posterior_alignment [2, 3] [[5, 6]] (fun x => x + 1) (fun _ => 1) 1
      [0, 1/2]).2 0 hstk).2 0 (by norm_num)⟩

/-- C7: the diagnostics are the arithmetic mean of the accepted QoI
values, the square root of their population variance (denominator `K`,
the length of `posterior_q`, not `K - 1`), the mean of the ENTIRE weight
sequence, and the mean of `r * log r` over the ENTIRE weight sequence. -/
theorem diagnostics_formulas (postq r : List ℚ) (sqrtf logf : ℚ → ℚ) :
    diagnostics postq r sqrtf logf =
      (postq.sum / postq.length,
       sqrtf ((postq.map (fun x => (x - postq.sum / postq.length) ^ 2)).sum /
         postq.length),
       r.sum / r.length,
       (r.map (fun x => x * logf x)).sum / r.length) := by
  simp [diagnostics, npMean, npVar]

/-- C8: evaluating a fitted density model is pure: the call returns the
model unchanged, and calling again with the same query points on the
model it returns yields identical results. -/
theorem kde_evaluate_pure (K : ℚ → ℚ) (m : DensityModel) (pts : List ℚ) :
    (m.evaluate K pts).2 = m
    ∧ (((m.evaluate K pts).2).evaluate K pts).1 = (m.evaluate K pts).1 :=
  ⟨rfl, rfl⟩
